import Mathlib

/-!
# Verification of the Minesweeper inference engine

A shallow embedding of `src/minesweeper.py` (classes `Sentence` and
`MinesweeperAI`), together with proofs and refutations of the frozen claims
about the engine.  Cells are integer coordinate pairs; Python `set`s of cells
become `Finset`s; the Python `list` of sentences becomes a Lean `List`;
Python `int` counts become `Int` (they may go negative in the source).
-/

/-- A board coordinate `(row, column)`, exactly the Python tuple. -/
abbrev Cell := Int × Int

/-- Embeds class `Sentence`: a set of cells and a count of how many of those
cells are mines.  `count` is an `Int` because the source never guards the
subtractions in `mark_mine` and in the subset-inference step. -/
structure Sentence where
  cells : Finset Cell
  count : Int

/-- `Sentence.__eq__`: equality of the cell sets and of the counts (this is
also definitionally all there is to a `Sentence`). -/
instance : DecidableEq Sentence := fun a b =>
  decidable_of_iff (a.cells = b.cells ∧ a.count = b.count) (by
    cases a
    cases b
    simp)

instance : Inhabited Sentence := ⟨⟨∅, 0⟩⟩

/-- `Sentence.known_mines`: returns the cell set when `count == len(cells)`,
otherwise Python returns `False`; we embed the `set | False` result as an
`Option`. -/
def Sentence.known_mines (s : Sentence) : Option (Finset Cell) :=
  if s.count = (s.cells.card : Int) then some s.cells else none

/-- `Sentence.known_safes`: returns the cell set when `count == 0`, else the
Python `False`, embedded as `Option`. -/
def Sentence.known_safes (s : Sentence) : Option (Finset Cell) :=
  if s.count = 0 then some s.cells else none

/-- Python truthiness of a `set | False` value: `False` and the empty set are
falsy, a non-empty set is truthy. -/
def optTruthy : Option (Finset Cell) → Bool
  | none => false
  | some t => decide (t ≠ ∅)

/-- `Sentence.mark_mine`: the source loops over a copy of `self.cells` and,
on finding `cell`, removes it and decrements `count` once. -/
def Sentence.mark_mine (cell : Cell) (s : Sentence) : Sentence :=
  if cell ∈ s.cells then ⟨s.cells.erase cell, s.count - 1⟩ else s

/-- `Sentence.mark_safe`: removes `cell` when present, `count` unchanged. -/
def Sentence.mark_safe (cell : Cell) (s : Sentence) : Sentence :=
  if cell ∈ s.cells then ⟨s.cells.erase cell, s.count⟩ else s

/-- Embeds class `MinesweeperAI`: board dimensions, the cells already acted
on, the known mines and safes, and the list of sentences. -/
structure MinesweeperAI where
  height : Int
  width : Int
  moves_made : Finset Cell
  mines : Finset Cell
  safes : Finset Cell
  knowledge : List Sentence

/-- `MinesweeperAI.__init__` with empty knowledge. -/
def MinesweeperAI.init (h w : Int) : MinesweeperAI :=
  ⟨h, w, ∅, ∅, ∅, []⟩

/-- `MinesweeperAI.mark_mine`: add to `self.mines` and update every
sentence. -/
def MinesweeperAI.mark_mine (cell : Cell) (ai : MinesweeperAI) : MinesweeperAI :=
  { ai with mines := insert cell ai.mines,
            knowledge := ai.knowledge.map (Sentence.mark_mine cell) }

/-- `MinesweeperAI.mark_safe`: add to `self.safes` and update every
sentence. -/
def MinesweeperAI.mark_safe (cell : Cell) (ai : MinesweeperAI) : MinesweeperAI :=
  { ai with safes := insert cell ai.safes,
            knowledge := ai.knowledge.map (Sentence.mark_safe cell) }

/-- One step of iterating `self.mark_mine` over a Python set of cells. -/
def markMineStep (c : Cell) (ai : MinesweeperAI) : MinesweeperAI :=
  ai.mark_mine c

/-- One step of iterating `self.mark_safe` over a Python set of cells. -/
def markSafeStep (c : Cell) (ai : MinesweeperAI) : MinesweeperAI :=
  ai.mark_safe c

instance : LeftCommutative markMineStep := by
  constructor
  intro a b ai
  have hcomm : ∀ t : Sentence, (t.mark_mine b).mark_mine a = (t.mark_mine a).mark_mine b := by
    intro t
    rcases eq_or_ne a b with rfl | hab
    · rfl
    · unfold Sentence.mark_mine
      by_cases ha : a ∈ t.cells <;> by_cases hb : b ∈ t.cells <;>
        simp [ha, hb, Finset.mem_erase, hab, hab.symm, Finset.erase_right_comm]
  unfold markMineStep MinesweeperAI.mark_mine
  simp only [List.map_map, Finset.Insert.comm]
  have hmap : ai.knowledge.map (Sentence.mark_mine a ∘ Sentence.mark_mine b)
      = ai.knowledge.map (Sentence.mark_mine b ∘ Sentence.mark_mine a) := by
    apply List.map_congr_left
    intro t _
    simpa using hcomm t
  rw [hmap]

instance : LeftCommutative markSafeStep := by
  constructor
  intro a b ai
  have hcomm : ∀ t : Sentence, (t.mark_safe b).mark_safe a = (t.mark_safe a).mark_safe b := by
    intro t
    rcases eq_or_ne a b with rfl | hab
    · rfl
    · unfold Sentence.mark_safe
      by_cases ha : a ∈ t.cells <;> by_cases hb : b ∈ t.cells <;>
        simp [ha, hb, Finset.mem_erase, hab, hab.symm, Finset.erase_right_comm]
  unfold markSafeStep MinesweeperAI.mark_safe
  simp only [List.map_map, Finset.Insert.comm]
  have hmap : ai.knowledge.map (Sentence.mark_safe a ∘ Sentence.mark_safe b)
      = ai.knowledge.map (Sentence.mark_safe b ∘ Sentence.mark_safe a) := by
    apply List.map_congr_left
    intro t _
    simpa using hcomm t
  rw [hmap]

/-- `for sentence_cell in sentence.known_mines(): self.mark_mine(sentence_cell)`:
iterating `mark_mine` over the set of cells.  Python set iteration
order is unspecified; the step is left-commutative, so the multiset fold is
exactly the set iteration. -/
def MinesweeperAI.mark_mine_all (cs : Finset Cell) (ai : MinesweeperAI) : MinesweeperAI :=
  Multiset.foldr markMineStep ai cs.val

/-- Iterating `mark_safe` over a set of cells, as the all-safes branch of
`check_knowledge` does. -/
def MinesweeperAI.mark_safe_all (cs : Finset Cell) (ai : MinesweeperAI) : MinesweeperAI :=
  Multiset.foldr markSafeStep ai cs.val

/-- The three per-sentence tests of the scan inside `check_knowledge`, in
source order: empty cell set, `known_mines()` truthy, `known_safes()`
truthy. -/
def Sentence.triggers (s : Sentence) : Bool :=
  decide (s.cells = ∅) || optTruthy s.known_mines || optTruthy s.known_safes

/-- The scan of `check_knowledge`: the first sentence (in list order) that
makes the loop act and restart.  The scan runs over a copy, but no mutation
happens before the first hit, so scanning the copy equals scanning the live
list. -/
def findTrigger (k : List Sentence) : Option Sentence :=
  k.find? Sentence.triggers

/-- The action `check_knowledge` takes on the first triggering sentence:
remove it when its cell set is empty (Python `list.remove` removes the first
value-equal element, which is this occurrence, because any earlier value-equal
sentence would have triggered first); otherwise mark all its cells as mines
or as safes. -/
def MinesweeperAI.applyTrigger (s : Sentence) (ai : MinesweeperAI) : MinesweeperAI :=
  if s.cells = ∅ then { ai with knowledge := ai.knowledge.erase s }
  else if optTruthy s.known_mines then ai.mark_mine_all s.cells
  else if optTruthy s.known_safes then ai.mark_safe_all s.cells
  else ai

/-- Termination measure of the `check_knowledge` restart recursion: total
number of cells over all sentences plus the number of sentences.  Every
trigger action strictly decreases it. -/
def kbMeasure (ai : MinesweeperAI) : Nat :=
  (ai.knowledge.map fun s => s.cells.card).sum + ai.knowledge.length

/-- The restart recursion of `check_knowledge`, with explicit fuel so the
definition is structural.  `check_knowledge` runs it with fuel `kbMeasure`,
which is proved sufficient (`check_knowledge_fixpoint`): the source recursion
and this fueled version reach the same fixpoint. -/
def checkFuel : Nat → MinesweeperAI → MinesweeperAI
  | 0, ai => ai
  | Nat.succ n, ai =>
    match findTrigger ai.knowledge with
    | none => ai
    | some s => checkFuel n (ai.applyTrigger s)

/-- `MinesweeperAI.check_knowledge`: scan for a sentence to simplify, act on
it, restart; stop when a full scan finds nothing. -/
def MinesweeperAI.check_knowledge (ai : MinesweeperAI) : MinesweeperAI :=
  checkFuel (kbMeasure ai) ai

/-- One iteration `j` of the inner loop of the subset-inference pass in
`add_knowledge`: skip value-equal pairs, else on a strict subset derive the
difference sentence and append it unless a value-equal sentence is already in
the list.  Indices read the live list (`getD` with a default that is never
hit in actual runs, since both loops stay below the list length). -/
def innerStep (i : Nat) (k : List Sentence) (j : Nat) : List Sentence :=
  let si := k.getD i default
  let sj := k.getD j default
  if si = sj then k
  else if sj.cells ⊂ si.cells then
    let ns : Sentence := ⟨si.cells \ sj.cells, si.count - sj.count⟩
    if ns ∈ k then k else k ++ [ns]
  else k

/-- The inner `for j in range(len(self.knowledge))` loop for a fixed `i`; its
range is the list length at the moment this inner loop starts. -/
def innerLoop (i : Nat) (k : List Sentence) : List Sentence :=
  (List.range k.length).foldl (innerStep i) k

/-- The subset-inference double loop of `add_knowledge`: the outer range is
the list length at entry; each inner range is recomputed, so sentences
appended by earlier iterations are compared against later outer indices. -/
def checkSubsets (k : List Sentence) : List Sentence :=
  (List.range k.length).foldl (fun acc i => innerLoop i acc) k

/-- The nine offsets of the `for i ... for j ...` neighbor loops, in source
iteration order (the `(0, 0)` offset is skipped by the `(i, j) == cell`
test). -/
def nbrOffsets : List (Int × Int) :=
  [(-1, -1), (-1, 0), (-1, 1), (0, -1), (0, 0), (0, 1), (1, -1), (1, 0), (1, 1)]

/-- The nine loop positions around `cell`, in source order. -/
def nbrList (c : Cell) : List Cell :=
  nbrOffsets.map fun d => (c.1 + d.1, c.2 + d.2)

/-- `0 <= i < self.height and 0 <= j < self.width`. -/
def inBounds (h w : Int) (c : Cell) : Prop :=
  0 ≤ c.1 ∧ c.1 < h ∧ 0 ≤ c.2 ∧ c.2 < w

instance (h w : Int) (c : Cell) : Decidable (inBounds h w c) :=
  inferInstanceAs (Decidable (0 ≤ c.1 ∧ c.1 < h ∧ 0 ≤ c.2 ∧ c.2 < w))

/-- The `count == 0` branch of `add_knowledge`: every in-bounds neighbor not
already marked safe and not already marked a mine is marked safe. -/
def markNbrsSafe (cell : Cell) (ai : MinesweeperAI) : MinesweeperAI :=
  (nbrList cell).foldl
    (fun a nb =>
      if nb = cell then a
      else if inBounds a.height a.width nb then
        (if nb ∉ a.safes ∧ nb ∉ a.mines then a.mark_safe nb else a)
      else a)
    ai

/-- One neighbor of the sentence-building loop in the `count != 0` branch:
skip the cell itself, skip known safes, discount and skip known mines (note:
this mine test precedes the bounds test, as in the source), then add in-bounds
neighbors to the new cell set. -/
def buildAcc (cell : Cell) (safes mines : Finset Cell) (h w : Int)
    (acc : Finset Cell × Int) (nb : Cell) : Finset Cell × Int :=
  if nb = cell then acc
  else if nb ∈ safes then acc
  else if nb ∈ mines then (acc.1, acc.2 - 1)
  else if inBounds h w nb then (insert nb acc.1, acc.2)
  else acc

/-- The sentence built by the `count != 0` branch of `add_knowledge`. -/
def newSentence (cell : Cell) (count : Int) (ai : MinesweeperAI) : Sentence :=
  let p := (nbrList cell).foldl
    (buildAcc cell ai.safes ai.mines ai.height ai.width) (∅, count)
  ⟨p.1, p.2⟩

/-- The `count != 0` branch appends the built sentence unconditionally —
the source has no duplicate test here. -/
def appendNewSentence (cell : Cell) (count : Int) (ai : MinesweeperAI) : MinesweeperAI :=
  { ai with knowledge := ai.knowledge ++ [newSentence cell count ai] }

/-- `self.moves_made.add(cell)`. -/
def recordMove (cell : Cell) (ai : MinesweeperAI) : MinesweeperAI :=
  { ai with moves_made := insert cell ai.moves_made }

/-- `if cell not in self.safes: self.mark_safe(cell)`. -/
def markSelfSafe (cell : Cell) (ai : MinesweeperAI) : MinesweeperAI :=
  if cell ∈ ai.safes then ai else ai.mark_safe cell

/-- The `if count == 0 ... else ...` branch of `add_knowledge`. -/
def integrateBranch (cell : Cell) (count : Int) (ai : MinesweeperAI) :
    MinesweeperAI :=
  if count = 0 then markNbrsSafe cell ai else appendNewSentence cell count ai

/-- The subset-inference pass, acting on the state. -/
def runSubsets (ai : MinesweeperAI) : MinesweeperAI :=
  { ai with knowledge := checkSubsets ai.knowledge }

/-- `MinesweeperAI.add_knowledge`, stage by stage in source order: record the
move, mark the cell safe if new, take the zero-count or sentence-building
branch, run `check_knowledge`, run the subset-inference pass, run
`check_knowledge` again. -/
def MinesweeperAI.add_knowledge (cell : Cell) (count : Int)
    (ai : MinesweeperAI) : MinesweeperAI :=
  (runSubsets
    ((integrateBranch cell count
      (markSelfSafe cell (recordMove cell ai))).check_knowledge)).check_knowledge

/-- `Minesweeper.nearby_mines` for the mine layout `M`: the number of
in-bounds neighbors of `cell` (the cell itself excluded) that are mines.
The source reads `self.board[i][j]`, which is `True` exactly on the cells of
`self.mines`. -/
def nearby_mines (M : Finset Cell) (h w : Int) (cell : Cell) : Nat :=
  (nbrList cell).countP fun nb =>
    decide (nb ≠ cell) && decide (inBounds h w nb) && decide (nb ∈ M)

/-- The states reachable from a fresh `MinesweeperAI` by feeding it counts
that are consistent with one actual mine layout `M`: each revealed cell is
in bounds, is not a mine, and is reported with its true neighbor-mine
count. -/
inductive Reach (h w : Int) (M : Finset Cell) : MinesweeperAI → Prop
  | init : Reach h w M (MinesweeperAI.init h w)
  | step {ai : MinesweeperAI} {cell : Cell} :
      Reach h w M ai → cell ∉ M → inBounds h w cell →
      Reach h w M (ai.add_knowledge cell (nearby_mines M h w cell : Int))

/-- A sentence is sound for the layout `M` when its count is exactly the
number of its cells that are mines of `M`. -/
def SoundFor (M : Finset Cell) (s : Sentence) : Prop :=
  s.count = ((s.cells ∩ M).card : Int)

/-- All cells of a sentence are on the board. -/
def CellsInB (h w : Int) (s : Sentence) : Prop :=
  ∀ c ∈ s.cells, inBounds h w c

/-- The consistency invariant maintained by every operation of the engine
when the observation feed is consistent with the layout `M`. -/
def ConsistentInv (h w : Int) (M : Finset Cell) (ai : MinesweeperAI) : Prop :=
  ai.height = h ∧ ai.width = w ∧
  (∀ s ∈ ai.knowledge, SoundFor M s ∧ CellsInB h w s) ∧
  ai.mines ⊆ M ∧ (∀ c ∈ ai.mines, inBounds h w c) ∧
  (∀ c ∈ ai.safes, c ∉ M)

/-- `k` extended on the right — the subset-inference pass only ever appends,
so the list at loop entry persists as an initial segment. -/
def Extends (k k' : List Sentence) : Prop :=
  ∃ t, k' = k ++ t

/-- One step of `check_knowledge` seen as a state transformer: act on the
first triggering sentence, or do nothing at the fixpoint. -/
def stepFn (ai : MinesweeperAI) : MinesweeperAI :=
  match findTrigger ai.knowledge with
  | none => ai
  | some s => ai.applyTrigger s

/-- The eight abstract grid neighbors of a cell (bounds ignored), as named by
the zero-count saturation claim. -/
def neighbors8 (c : Cell) : Finset Cell :=
  ((nbrList c).filter fun nb => decide (nb ≠ c)).toFinset

/-- The neighbors that end up in the new sentence: not the cell, not a known
safe, not a known mine, in bounds. -/
def pcB (cell : Cell) (safes mines : Finset Cell) (h w : Int) (nb : Cell) : Bool :=
  decide (nb ≠ cell) && decide (nb ∉ safes) && decide (nb ∉ mines) &&
    decide (inBounds h w nb)

/-- The neighbors that decrement the count: not the cell, not a known safe,
a known mine (the source tests this before the bounds test). -/
def pmB (cell : Cell) (safes mines : Finset Cell) (nb : Cell) : Bool :=
  decide (nb ≠ cell) && decide (nb ∉ safes) && decide (nb ∈ mines)

/-! ## Concrete scenario states used by the claims -/

/-- Knowledge base holding A = {(0,0),(0,1),(0,2)} = 2 and
B = {(0,0),(0,1)} = 1 on a 5 by 5 board. -/
def aiSubEx : MinesweeperAI :=
  ⟨5, 5, ∅, ∅, ∅, [⟨{(0,0), (0,1), (0,2)}, 2⟩, ⟨{(0,0), (0,1)}, 1⟩]⟩

/-- Knowledge base holding A = {(0,0),(0,1),(0,2)} = 1 and the inconsistent
B = {(0,0),(0,1)} = 3 on a 5 by 5 board. -/
def aiBadEx : MinesweeperAI :=
  ⟨5, 5, ∅, ∅, ∅, [⟨{(0,0), (0,1), (0,2)}, 1⟩, ⟨{(0,0), (0,1)}, 3⟩]⟩

/-- The state of a fresh 2 by 2 player after integrating ((0,0), 1). -/
def aiDup : MinesweeperAI := (MinesweeperAI.init 2 2).add_knowledge (0, 0) 1

/-- The sentence that call builds: the three in-bounds neighbors of (0,0),
one of which is a mine. -/
def sDup : Sentence := ⟨{(0,1), (1,0), (1,1)}, 1⟩

/-- A fresh 1 by 2 player fed ((0,0), 1) — which proves (0,1) a mine — and
then the inconsistent observation ((0,1), 0). -/
def aiClash : MinesweeperAI :=
  ((MinesweeperAI.init 1 2).add_knowledge (0, 0) 1).add_knowledge (0, 1) 0

/-! ## Closed forms for marking a whole set of cells -/

theorem Sentence.mark_mine_insert_closed (a : Cell) (F : Finset Cell) (t : Sentence) :
    Sentence.mark_mine a ⟨t.cells \ F, t.count - ((t.cells ∩ F).card : Int)⟩ =
      ⟨t.cells \ insert a F, t.count - ((t.cells ∩ insert a F).card : Int)⟩ := by
  unfold Sentence.mark_mine
  by_cases haF : a ∈ F
  · simp [Finset.mem_sdiff, haF, Finset.insert_eq_self.mpr haF]
  · by_cases hat : a ∈ t.cells
    · have hmem : a ∈ t.cells \ F := Finset.mem_sdiff.mpr ⟨hat, haF⟩
      have hcells : (t.cells \ F).erase a = t.cells \ insert a F :=
        (Finset.sdiff_insert t.cells F a).symm
      have hinter : t.cells ∩ insert a F = insert a (t.cells ∩ F) := by
        rw [Finset.inter_comm, Finset.insert_inter_of_mem hat, Finset.inter_comm]
      have hcard : ((t.cells ∩ insert a F).card : Int) = ((t.cells ∩ F).card : Int) + 1 := by
        rw [hinter, Finset.card_insert_of_not_mem (by simp [haF])]
        push_cast
        ring
      simp only [hmem, if_true]
      rw [hcells, hcard]
      simp only [Sentence.mk.injEq, true_and]
      ring
    · have hmem : a ∉ t.cells \ F := by simp [hat]
      have hcells : t.cells \ insert a F = t.cells \ F := by
        rw [Finset.sdiff_insert, Finset.erase_eq_of_not_mem (by simp [hat])]
      have hinter : t.cells ∩ insert a F = t.cells ∩ F := by
        rw [Finset.inter_comm, Finset.insert_inter_of_not_mem hat, Finset.inter_comm]
      simp [hmem, hcells, hinter]

theorem Sentence.mark_safe_insert_closed (a : Cell) (F : Finset Cell) (t : Sentence) :
    Sentence.mark_safe a ⟨t.cells \ F, t.count⟩ = ⟨t.cells \ insert a F, t.count⟩ := by
  unfold Sentence.mark_safe
  by_cases haF : a ∈ F
  · simp [Finset.mem_sdiff, haF, Finset.insert_eq_self.mpr haF]
  · by_cases hat : a ∈ t.cells
    · have hmem : a ∈ t.cells \ F := Finset.mem_sdiff.mpr ⟨hat, haF⟩
      have hcells : (t.cells \ F).erase a = t.cells \ insert a F :=
        (Finset.sdiff_insert t.cells F a).symm
      simp [hmem, hcells]
    · have hmem : a ∉ t.cells \ F := by simp [hat]
      have hcells : t.cells \ insert a F = t.cells \ F := by
        rw [Finset.sdiff_insert, Finset.erase_eq_of_not_mem (by simp [hat])]
      simp [hmem, hcells]

theorem foldr_markMine_closed (ai : MinesweeperAI) (m : Multiset Cell) :
    Multiset.foldr markMineStep ai m =
      { ai with mines := ai.mines ∪ m.toFinset,
                knowledge := ai.knowledge.map fun t =>
                  ⟨t.cells \ m.toFinset, t.count - ((t.cells ∩ m.toFinset).card : Int)⟩ } := by
  induction m using Multiset.induction_on with
  | empty =>
    simp only [Multiset.foldr_zero, Multiset.toFinset_zero, Finset.sdiff_empty,
      Finset.inter_empty, Finset.card_empty, Nat.cast_zero, sub_zero, Finset.union_empty]
    have hid : (fun t : Sentence => (⟨t.cells, t.count⟩ : Sentence)) = id := by
      funext t
      rfl
    rw [hid, List.map_id]
  | cons a m ih =>
    rw [Multiset.foldr_cons, ih]
    unfold markMineStep MinesweeperAI.mark_mine
    simp only [Multiset.toFinset_cons, List.map_map]
    rw [Finset.union_insert]
    congr 1
    apply List.map_congr_left
    intro t _
    exact Sentence.mark_mine_insert_closed a m.toFinset t

theorem foldr_markSafe_closed (ai : MinesweeperAI) (m : Multiset Cell) :
    Multiset.foldr markSafeStep ai m =
      { ai with safes := ai.safes ∪ m.toFinset,
                knowledge := ai.knowledge.map fun t =>
                  ⟨t.cells \ m.toFinset, t.count⟩ } := by
  induction m using Multiset.induction_on with
  | empty =>
    simp only [Multiset.foldr_zero, Multiset.toFinset_zero, Finset.sdiff_empty,
      Finset.union_empty]
    have hid : (fun t : Sentence => (⟨t.cells, t.count⟩ : Sentence)) = id := by
      funext t
      rfl
    rw [hid, List.map_id]
  | cons a m ih =>
    rw [Multiset.foldr_cons, ih]
    unfold markSafeStep MinesweeperAI.mark_safe
    simp only [Multiset.toFinset_cons, List.map_map]
    rw [Finset.union_insert]
    congr 1
    apply List.map_congr_left
    intro t _
    exact Sentence.mark_safe_insert_closed a m.toFinset t

theorem mark_mine_all_closed (cs : Finset Cell) (ai : MinesweeperAI) :
    ai.mark_mine_all cs =
      { ai with mines := ai.mines ∪ cs,
                knowledge := ai.knowledge.map fun t =>
                  ⟨t.cells \ cs, t.count - ((t.cells ∩ cs).card : Int)⟩ } := by
  unfold MinesweeperAI.mark_mine_all
  rw [foldr_markMine_closed]
  simp [Finset.val_toFinset]

theorem mark_safe_all_closed (cs : Finset Cell) (ai : MinesweeperAI) :
    ai.mark_safe_all cs =
      { ai with safes := ai.safes ∪ cs,
                knowledge := ai.knowledge.map fun t => ⟨t.cells \ cs, t.count⟩ } := by
  unfold MinesweeperAI.mark_safe_all
  rw [foldr_markSafe_closed]
  simp [Finset.val_toFinset]

/-! ## The `check_knowledge` scan: specification and termination -/

theorem findTrigger_mem {k : List Sentence} {s : Sentence}
    (h : findTrigger k = some s) : s ∈ k :=
  List.mem_of_find?_eq_some h

theorem findTrigger_spec {k : List Sentence} {s : Sentence}
    (h : findTrigger k = some s) : s.triggers = true :=
  List.find?_some h

theorem findTrigger_none {k : List Sentence} (h : findTrigger k = none) :
    ∀ s ∈ k, s.triggers = false := by
  intro s hs
  have := List.find?_eq_none.mp h s hs
  simpa using this

/-- What a triggering sentence looks like: empty cell set, or a non-empty
all-mines sentence, or a non-empty all-safes sentence. -/
theorem triggers_iff (s : Sentence) :
    s.triggers = true ↔
      s.cells = ∅ ∨ (s.cells ≠ ∅ ∧ s.count = (s.cells.card : Int)) ∨
        (s.cells ≠ ∅ ∧ s.count = 0) := by
  unfold Sentence.triggers optTruthy Sentence.known_mines Sentence.known_safes
  by_cases h1 : s.count = (s.cells.card : Int) <;>
    by_cases h2 : s.count = 0 <;>
    by_cases h3 : s.cells = ∅ <;>
    simp [h1, h2, h3]

/-- A non-triggering sentence is non-empty, not all mines and not all
safes. -/
theorem triggers_false (s : Sentence) (h : s.triggers = false) :
    s.cells ≠ ∅ ∧ s.count ≠ 0 ∧ s.count ≠ (s.cells.card : Int) := by
  have hne : ¬ s.triggers = true := by simp [h]
  rw [triggers_iff] at hne
  push_neg at hne
  refine ⟨hne.1, fun h0 => ?_, fun hc => ?_⟩
  · exact (hne.2.2 hne.1) h0
  · exact (hne.2.1 hne.1) hc

theorem sum_map_card_le (cs : Finset Cell) (l : List Sentence) :
    ((l.map fun t => (⟨t.cells \ cs, t.count - ((t.cells ∩ cs).card : Int)⟩ : Sentence)).map
        fun s => s.cells.card).sum ≤ (l.map fun s => s.cells.card).sum := by
  rw [List.map_map]
  apply List.sum_le_sum
  intro t _
  exact Finset.card_le_card (Finset.sdiff_subset)

theorem sum_map_card_le_safe (cs : Finset Cell) (l : List Sentence) :
    ((l.map fun t => (⟨t.cells \ cs, t.count⟩ : Sentence)).map
        fun s => s.cells.card).sum ≤ (l.map fun s => s.cells.card).sum := by
  rw [List.map_map]
  apply List.sum_le_sum
  intro t _
  exact Finset.card_le_card (Finset.sdiff_subset)

/-- Every action of the `check_knowledge` scan strictly decreases the
measure: removing an empty sentence shortens the list, and marking a
non-empty sentence as all-mines or all-safes empties its cell set. -/
theorem kbMeasure_applyTrigger_lt {ai : MinesweeperAI} {s : Sentence}
    (hs : s ∈ ai.knowledge) (ht : s.triggers = true) :
    kbMeasure (ai.applyTrigger s) < kbMeasure ai := by
  rcases (triggers_iff s).mp ht with hemp | ⟨hne, hmines⟩ | ⟨hne, hsafes⟩
  · -- empty sentence removed
    unfold MinesweeperAI.applyTrigger
    rw [if_pos hemp]
    obtain ⟨l₁, l₂, _, hsplit, herase⟩ := List.exists_erase_eq hs
    unfold kbMeasure
    rw [herase, hsplit]
    simp only [List.map_append, List.sum_append, List.length_append,
      List.map_cons, List.sum_cons, List.length_cons, hemp, Finset.card_empty]
    omega
  · -- all mines
    have hkm : optTruthy s.known_mines = true := by
      unfold optTruthy Sentence.known_mines
      simp [hmines, hne]
    unfold MinesweeperAI.applyTrigger
    rw [if_neg (by simpa using hne), if_pos hkm, mark_mine_all_closed]
    obtain ⟨l₁, l₂, hsplit⟩ := List.append_of_mem hs
    unfold kbMeasure
    simp only [hsplit, List.map_append, List.sum_append, List.length_append,
      List.map_cons, List.sum_cons, List.length_cons, List.length_map]
    have h1 := sum_map_card_le s.cells l₁
    have h2 := sum_map_card_le s.cells l₂
    have hmid : (s.cells \ s.cells).card < s.cells.card := by
      rw [Finset.sdiff_self]
      simpa [Finset.card_pos, Finset.nonempty_iff_ne_empty] using hne
    simp only [Finset.card_empty] at hmid ⊢
    omega
  · -- all safes
    have hkmf : optTruthy s.known_mines = false := by
      unfold optTruthy Sentence.known_mines
      by_cases hc : s.count = (s.cells.card : Int)
      · have : s.cells.card = 0 := by
          have := hc.symm.trans hsafes
          exact_mod_cast this
        exact absurd (Finset.card_eq_zero.mp this) hne
      · simp [hc]
    have hks : optTruthy s.known_safes = true := by
      unfold optTruthy Sentence.known_safes
      simp [hsafes, hne]
    unfold MinesweeperAI.applyTrigger
    rw [if_neg (by simpa using hne), if_neg (by simp [hkmf]), if_pos hks,
      mark_safe_all_closed]
    obtain ⟨l₁, l₂, hsplit⟩ := List.append_of_mem hs
    unfold kbMeasure
    simp only [hsplit, List.map_append, List.sum_append, List.length_append,
      List.map_cons, List.sum_cons, List.length_cons, List.length_map]
    have h1 := sum_map_card_le_safe s.cells l₁
    have h2 := sum_map_card_le_safe s.cells l₂
    have hmid : (s.cells \ s.cells).card < s.cells.card := by
      rw [Finset.sdiff_self]
      simpa [Finset.card_pos, Finset.nonempty_iff_ne_empty] using hne
    simp only [Finset.card_empty] at hmid ⊢
    omega

/-- Fuel `kbMeasure ai` always suffices: the fueled recursion reaches the
fixpoint, a state whose scan finds nothing to simplify. -/
theorem checkFuel_fixpoint :
    ∀ (n : Nat) (ai : MinesweeperAI), kbMeasure ai ≤ n →
      findTrigger (checkFuel n ai).knowledge = none := by
  intro n
  induction n with
  | zero =>
    intro ai h
    have hlen : ai.knowledge.length = 0 := by
      unfold kbMeasure at h
      omega
    have hnil : ai.knowledge = [] := List.length_eq_zero.mp hlen
    simp [checkFuel, findTrigger, hnil]
  | succ n ih =>
    intro ai h
    cases hft : findTrigger ai.knowledge with
    | none => simp [checkFuel, hft]
    | some s =>
      have hlt := kbMeasure_applyTrigger_lt (findTrigger_mem hft) (findTrigger_spec hft)
      simp only [checkFuel, hft]
      exact ih _ (by omega)

/-- The scan of the state returned by `check_knowledge` finds nothing: the
source recursion stops exactly here, so the fueled embedding computes the
same fixpoint the unbounded Python recursion does. -/
theorem check_knowledge_fixpoint (ai : MinesweeperAI) :
    findTrigger ai.check_knowledge.knowledge = none :=
  checkFuel_fixpoint (kbMeasure ai) ai le_rfl

theorem checkFuel_eq_iterate : ∀ (n : Nat) (ai : MinesweeperAI),
    checkFuel n ai = stepFn^[n] ai := by
  intro n
  induction n with
  | zero => intro ai; rfl
  | succ n ih =>
    intro ai
    cases hft : findTrigger ai.knowledge with
    | none =>
      have hfix : stepFn ai = ai := by simp [stepFn, hft]
      simp [checkFuel, hft, Function.iterate_fixed hfix]
    | some s =>
      rw [Function.iterate_succ_apply]
      have hstep : stepFn ai = ai.applyTrigger s := by simp [stepFn, hft]
      simp [checkFuel, hft, hstep, ih]

theorem stepFn_check_knowledge (ai : MinesweeperAI) :
    stepFn ai.check_knowledge = ai.check_knowledge := by
  unfold stepFn
  rw [check_knowledge_fixpoint ai]

/-! ## The subset-inference pass: it only appends -/

theorem extends_refl (k : List Sentence) : Extends k k :=
  ⟨[], by simp⟩

theorem extends_trans {a b c : List Sentence} (h1 : Extends a b) (h2 : Extends b c) :
    Extends a c := by
  rcases h1 with ⟨t1, rfl⟩
  rcases h2 with ⟨t2, rfl⟩
  exact ⟨t1 ++ t2, by simp⟩

theorem extends_mem {k k' : List Sentence} {x : Sentence}
    (h : Extends k k') (hx : x ∈ k) : x ∈ k' := by
  rcases h with ⟨t, rfl⟩
  exact List.mem_append_left t hx

theorem extends_length {k k' : List Sentence} (h : Extends k k') :
    k.length ≤ k'.length := by
  rcases h with ⟨t, rfl⟩
  simp

theorem extends_getD {k k' : List Sentence} (h : Extends k k') {i : Nat}
    (hi : i < k.length) (d : Sentence) : k'.getD i d = k.getD i d := by
  rcases h with ⟨t, rfl⟩
  rw [List.getD_eq_getElem?_getD, List.getD_eq_getElem?_getD,
    List.getElem?_append_left hi]

theorem innerStep_extends (i : Nat) (k : List Sentence) (j : Nat) :
    Extends k (innerStep i k j) := by
  unfold innerStep
  dsimp only
  split
  · exact extends_refl k
  · split
    · split
      · exact extends_refl k
      · exact ⟨_, rfl⟩
    · exact extends_refl k

theorem foldl_extends {α : Type} (f : List Sentence → α → List Sentence)
    (hf : ∀ acc a, Extends acc (f acc a)) :
    ∀ (l : List α) (acc : List Sentence), Extends acc (l.foldl f acc) := by
  intro l
  induction l with
  | nil => intro acc; exact extends_refl acc
  | cons a l ih =>
    intro acc
    exact extends_trans (hf acc a) (ih (f acc a))

theorem innerLoop_extends (i : Nat) (k : List Sentence) :
    Extends k (innerLoop i k) :=
  foldl_extends (innerStep i) (innerStep_extends i) (List.range k.length) k

theorem checkSubsets_extends (k : List Sentence) : Extends k (checkSubsets k) :=
  foldl_extends (fun acc i => innerLoop i acc) (fun acc i => innerLoop_extends i acc)
    (List.range k.length) k

theorem foldl_mem_target {α : Type} (f : List Sentence → α → List Sentence)
    (k : List Sentence) (x : Sentence) (tgt : α)
    (hext : ∀ acc a, Extends acc (f acc a))
    (hstep : ∀ acc, Extends k acc → x ∈ f acc tgt) :
    ∀ (l : List α) (acc : List Sentence), tgt ∈ l → Extends k acc →
      x ∈ l.foldl f acc := by
  intro l
  induction l with
  | nil =>
    intro acc h
    exact absurd h (List.not_mem_nil tgt)
  | cons a l ih =>
    intro acc hmem hk
    rcases List.mem_cons.mp hmem with rfl | hmem'
    · exact extends_mem (foldl_extends f hext l (f acc tgt)) (hstep acc hk)
    · exact ih (f acc a) hmem' (extends_trans hk (hext acc a))

theorem getD_mem_or_default (l : List Sentence) (i : Nat) :
    l.getD i default ∈ l ∨ l.getD i default = default := by
  by_cases hi : i < l.length
  · left
    rw [List.getD_eq_getElem l default hi]
    exact List.getElem_mem hi
  · right
    exact List.getD_eq_default l default (le_of_not_lt hi)

/-- The heart of the subset-inference pass: any two distinct sentences held
at pass entry, one a strict subset of the other, yield their difference
sentence in the final list (it is appended unless a value-equal sentence is
already present; either way it is a member afterwards). -/
theorem derived_mem_checkSubsets {k : List Sentence} {A B : Sentence}
    (hA : A ∈ k) (hB : B ∈ k) (hne : A ≠ B) (hsub : B.cells ⊂ A.cells) :
    (⟨A.cells \ B.cells, A.count - B.count⟩ : Sentence) ∈ checkSubsets k := by
  obtain ⟨i, hi, hAi⟩ := List.mem_iff_getElem.mp hA
  obtain ⟨j, hj, hBj⟩ := List.mem_iff_getElem.mp hB
  have hstepinner : ∀ acc, Extends k acc →
      (⟨A.cells \ B.cells, A.count - B.count⟩ : Sentence) ∈ innerStep i acc j := by
    intro acc hacc
    have hgi : acc.getD i default = A := by
      rw [extends_getD hacc hi, List.getD_eq_getElem k default hi, hAi]
    have hgj : acc.getD j default = B := by
      rw [extends_getD hacc hj, List.getD_eq_getElem k default hj, hBj]
    unfold innerStep
    dsimp only
    rw [hgi, hgj, if_neg hne, if_pos hsub]
    split
    · next hmem => exact hmem
    · exact List.mem_append_right acc (List.mem_singleton.mpr rfl)
  have hinner : ∀ acc, Extends k acc →
      (⟨A.cells \ B.cells, A.count - B.count⟩ : Sentence) ∈ innerLoop i acc := by
    intro acc hacc
    unfold innerLoop
    exact foldl_mem_target (innerStep i) k _ j (innerStep_extends i) hstepinner
      (List.range acc.length) acc
      (List.mem_range.mpr (lt_of_lt_of_le hj (extends_length hacc))) hacc
  unfold checkSubsets
  exact foldl_mem_target (fun acc i => innerLoop i acc) k _ i
    (fun acc a => innerLoop_extends a acc) hinner
    (List.range k.length) k (List.mem_range.mpr hi) (extends_refl k)

theorem foldl_preserve {α : Type} (f : List Sentence → α → List Sentence)
    (G : Sentence → Prop)
    (hf : ∀ acc a, (∀ s ∈ acc, G s) → ∀ s ∈ f acc a, G s) :
    ∀ (l : List α) (acc : List Sentence), (∀ s ∈ acc, G s) →
      ∀ s ∈ l.foldl f acc, G s := by
  intro l
  induction l with
  | nil => intro acc h; exact h
  | cons a l ih =>
    intro acc h
    exact ih (f acc a) (hf acc a h)

/-- Every sentence of the list after the subset-inference pass satisfies `G`,
provided the sentences before it do, `G` holds of the default sentence
`⟨∅, 0⟩`, and `G` is closed under taking the difference of two sentences. -/
theorem checkSubsets_preserve {G : Sentence → Prop} (hdef : G default)
    (hder : ∀ a b : Sentence, G a → G b → b.cells ⊂ a.cells →
      G ⟨a.cells \ b.cells, a.count - b.count⟩)
    {k : List Sentence} (hk : ∀ s ∈ k, G s) :
    ∀ s ∈ checkSubsets k, G s := by
  have hstep : ∀ (i : Nat) (acc : List Sentence) (j : Nat), (∀ s ∈ acc, G s) →
      ∀ s ∈ innerStep i acc j, G s := by
    intro i acc j hacc
    have hGi : G (acc.getD i default) := by
      rcases getD_mem_or_default acc i with h | h
      · exact hacc _ h
      · rw [h]; exact hdef
    have hGj : G (acc.getD j default) := by
      rcases getD_mem_or_default acc j with h | h
      · exact hacc _ h
      · rw [h]; exact hdef
    intro s hs
    unfold innerStep at hs
    dsimp only at hs
    split at hs
    · exact hacc s hs
    · split at hs
      · split at hs
        · exact hacc s hs
        · rcases List.mem_append.mp hs with h | h
          · exact hacc s h
          · next hsub _ =>
              rw [List.mem_singleton.mp h]
              exact hder _ _ hGi hGj hsub
      · exact hacc s hs
  have hloop : ∀ (i : Nat) (acc : List Sentence), (∀ s ∈ acc, G s) →
      ∀ s ∈ innerLoop i acc, G s := by
    intro i acc hacc
    exact foldl_preserve (innerStep i) G (hstep i) (List.range acc.length) acc hacc
  exact foldl_preserve (fun acc i => innerLoop i acc) G
    (fun acc i hacc => hloop i acc hacc) (List.range k.length) k hk

/-! ## The consistency invariant and its preservation -/

theorem erase_inter_of_not_mem {c : Cell} {M : Finset Cell} (hc : c ∉ M)
    (s : Finset Cell) : (s.erase c) ∩ M = s ∩ M := by
  ext x
  simp only [Finset.mem_inter, Finset.mem_erase]
  constructor
  · rintro ⟨⟨-, hx⟩, hM⟩
    exact ⟨hx, hM⟩
  · rintro ⟨hx, hM⟩
    exact ⟨⟨fun hxc => hc (hxc ▸ hM), hx⟩, hM⟩

theorem sdiff_inter_of_subset_compl {cs : Finset Cell} {M : Finset Cell}
    (hcs : ∀ x ∈ cs, x ∉ M) (t : Finset Cell) : (t \ cs) ∩ M = t ∩ M := by
  ext x
  simp only [Finset.mem_inter, Finset.mem_sdiff]
  constructor
  · rintro ⟨⟨hx, -⟩, hM⟩
    exact ⟨hx, hM⟩
  · rintro ⟨hx, hM⟩
    exact ⟨⟨hx, fun hxcs => hcs x hxcs hM⟩, hM⟩

theorem sdiff_inter_eq (t cs M : Finset Cell) :
    (t \ cs) ∩ M = (t ∩ M) \ (t ∩ cs) := by
  ext x
  simp only [Finset.mem_inter, Finset.mem_sdiff]
  tauto

theorem card_sdiff_inter_of_subset {cs M : Finset Cell} (hcs : cs ⊆ M)
    (t : Finset Cell) :
    (((t \ cs) ∩ M).card : Int) = ((t ∩ M).card : Int) - ((t ∩ cs).card : Int) := by
  rw [sdiff_inter_eq]
  have hsub : t ∩ cs ⊆ t ∩ M := Finset.inter_subset_inter le_rfl hcs
  rw [Finset.card_sdiff hsub]
  have hle := Finset.card_le_card hsub
  push_cast [Nat.cast_sub hle]
  ring

/-- Marking a cell that is not a mine of `M` preserves the invariant. -/
theorem mark_safe_inv {h w : Int} {M : Finset Cell} {ai : MinesweeperAI}
    (hInv : ConsistentInv h w M ai) {c : Cell} (hc : c ∉ M) :
    ConsistentInv h w M (ai.mark_safe c) := by
  obtain ⟨hh, hw, hk, hmM, hmB, hsM⟩ := hInv
  refine ⟨hh, hw, ?_, hmM, hmB, ?_⟩
  · intro s hs
    simp only [MinesweeperAI.mark_safe, List.mem_map] at hs
    obtain ⟨t, ht, rfl⟩ := hs
    obtain ⟨htS, htB⟩ := hk t ht
    unfold Sentence.mark_safe
    split
    · refine ⟨?_, ?_⟩
      · unfold SoundFor at htS ⊢
        simpa [erase_inter_of_not_mem hc] using htS
      · intro x hx
        exact htB x (Finset.mem_of_mem_erase hx)
    · exact ⟨htS, htB⟩
  · intro x hx
    simp only [MinesweeperAI.mark_safe, Finset.mem_insert] at hx
    rcases hx with rfl | hx
    · exact hc
    · exact hsM x hx

/-- Acting on a triggering sentence preserves the invariant: a sound
all-mines sentence has all its cells in `M`, a sound all-safes sentence has
none. -/
theorem applyTrigger_inv {h w : Int} {M : Finset Cell} {ai : MinesweeperAI}
    {s : Sentence} (hs : s ∈ ai.knowledge) (hInv : ConsistentInv h w M ai) :
    ConsistentInv h w M (ai.applyTrigger s) := by
  obtain ⟨hh, hw, hk, hmM, hmB, hsM⟩ := hInv
  obtain ⟨hsS, hsB⟩ := hk s hs
  unfold MinesweeperAI.applyTrigger
  split
  · -- empty sentence removed
    exact ⟨hh, hw, fun t ht => hk t (List.mem_of_mem_erase ht), hmM, hmB, hsM⟩
  · split
    · -- all mines: s.count = card and cells non-empty
      next hne hkm =>
        have hcnt : s.count = (s.cells.card : Int) := by
          unfold optTruthy Sentence.known_mines at hkm
          by_cases hc : s.count = (s.cells.card : Int)
          · exact hc
          · simp [hc] at hkm
        have hsubM : s.cells ⊆ M := by
          have hcards : (s.cells ∩ M).card = s.cells.card := by
            have := hsS.symm.trans hcnt
            exact_mod_cast this
          have := Finset.eq_of_subset_of_card_le Finset.inter_subset_left
            (le_of_eq hcards.symm)
          rw [← Finset.inter_eq_left]
          exact this
        rw [mark_mine_all_closed]
        refine ⟨hh, hw, ?_, ?_, ?_, hsM⟩
        · intro t' ht'
          simp only [List.mem_map] at ht'
          obtain ⟨t, ht, rfl⟩ := ht'
          obtain ⟨htS, htB⟩ := hk t ht
          refine ⟨?_, ?_⟩
          · unfold SoundFor at htS ⊢
            rw [card_sdiff_inter_of_subset hsubM, ← htS]
          · intro x hx
            exact htB x (Finset.mem_sdiff.mp hx).1
        · exact Finset.union_subset hmM hsubM
        · intro x hx
          rcases Finset.mem_union.mp hx with hx | hx
          · exact hmB x hx
          · exact hsB x hx
    · split
      · -- all safes: s.count = 0, so no cell of s is in M
        next hne hnm hks =>
          have hcnt : s.count = 0 := by
            unfold optTruthy Sentence.known_safes at hks
            by_cases hc : s.count = 0
            · exact hc
            · simp [hc] at hks
          have hdisj : ∀ x ∈ s.cells, x ∉ M := by
            intro x hx hxM
            have : (s.cells ∩ M).card = 0 := by
              have := hsS.symm.trans hcnt
              exact_mod_cast this
            have hempty : s.cells ∩ M = ∅ := Finset.card_eq_zero.mp this
            have : x ∈ s.cells ∩ M := Finset.mem_inter.mpr ⟨hx, hxM⟩
            simp [hempty] at this
          rw [mark_safe_all_closed]
          refine ⟨hh, hw, ?_, hmM, hmB, ?_⟩
          · intro t' ht'
            simp only [List.mem_map] at ht'
            obtain ⟨t, ht, rfl⟩ := ht'
            obtain ⟨htS, htB⟩ := hk t ht
            refine ⟨?_, ?_⟩
            · unfold SoundFor at htS ⊢
              simpa [sdiff_inter_of_subset_compl hdisj] using htS
            · intro x hx
              exact htB x (Finset.mem_sdiff.mp hx).1
          · intro x hx
            rcases Finset.mem_union.mp hx with hx | hx
            · exact hsM x hx
            · exact hdisj x hx
      · exact ⟨hh, hw, hk, hmM, hmB, hsM⟩

theorem checkFuel_inv {h w : Int} {M : Finset Cell} :
    ∀ (n : Nat) {ai : MinesweeperAI}, ConsistentInv h w M ai →
      ConsistentInv h w M (checkFuel n ai) := by
  intro n
  induction n with
  | zero => intro ai hInv; exact hInv
  | succ n ih =>
    intro ai hInv
    cases hft : findTrigger ai.knowledge with
    | none => simpa [checkFuel, hft] using hInv
    | some s =>
      simp only [checkFuel, hft]
      exact ih (applyTrigger_inv (findTrigger_mem hft) hInv)

theorem check_knowledge_inv {h w : Int} {M : Finset Cell} {ai : MinesweeperAI}
    (hInv : ConsistentInv h w M ai) :
    ConsistentInv h w M ai.check_knowledge :=
  checkFuel_inv (kbMeasure ai) hInv

/-- The difference of two sound sentences along a strict subset is sound. -/
theorem derived_sound {h w : Int} {M : Finset Cell} {a b : Sentence}
    (ha : SoundFor M a ∧ CellsInB h w a) (hb : SoundFor M b ∧ CellsInB h w b)
    (hsub : b.cells ⊂ a.cells) :
    SoundFor M (⟨a.cells \ b.cells, a.count - b.count⟩ : Sentence)
      ∧ CellsInB h w (⟨a.cells \ b.cells, a.count - b.count⟩ : Sentence) := by
  refine ⟨?_, ?_⟩
  · unfold SoundFor at ha hb ⊢
    have hba : b.cells ⊆ a.cells := le_of_lt hsub
    have hcells : (a.cells \ b.cells) ∩ M = (a.cells ∩ M) \ (b.cells ∩ M) := by
      ext x
      simp only [Finset.mem_inter, Finset.mem_sdiff]
      constructor
      · rintro ⟨⟨hx, hnb⟩, hM⟩
        exact ⟨⟨hx, hM⟩, fun hbm => hnb hbm.1⟩
      · rintro ⟨⟨hx, hM⟩, hnb⟩
        exact ⟨⟨hx, fun hb' => hnb ⟨hb', hM⟩⟩, hM⟩
    have hsubM : b.cells ∩ M ⊆ a.cells ∩ M := Finset.inter_subset_inter hba le_rfl
    rw [ha.1, hb.1]
    dsimp only
    rw [hcells, Finset.card_sdiff hsubM]
    have hle := Finset.card_le_card hsubM
    push_cast [Nat.cast_sub hle]
    ring
  · intro x hx
    exact ha.2 x (Finset.mem_sdiff.mp hx).1

theorem checkSubsets_inv {h w : Int} {M : Finset Cell} {ai : MinesweeperAI}
    (hInv : ConsistentInv h w M ai) :
    ConsistentInv h w M { ai with knowledge := checkSubsets ai.knowledge } := by
  obtain ⟨hh, hw, hk, hmM, hmB, hsM⟩ := hInv
  refine ⟨hh, hw, ?_, hmM, hmB, hsM⟩
  intro s hs
  exact checkSubsets_preserve
    (G := fun s => SoundFor M s ∧ CellsInB h w s)
    ⟨by unfold SoundFor; simp [default], by intro x hx; simp [default] at hx⟩
    (fun a b ha hb hsub => derived_sound ha hb hsub) hk s hs

/-! ## The sentence built by `add_knowledge` -/

theorem buildAcc_fold_closed (cell : Cell) (safes mines : Finset Cell) (h w : Int) :
    ∀ (l : List Cell) (F : Finset Cell) (n : Int),
      l.foldl (buildAcc cell safes mines h w) (F, n)
        = (F ∪ (l.filter (pcB cell safes mines h w)).toFinset,
           n - (l.countP (pmB cell safes mines) : Int)) := by
  intro l
  induction l with
  | nil =>
    intro F n
    simp
  | cons a l ih =>
    intro F n
    by_cases h1 : a = cell
    · subst h1
      have hpc : pcB a safes mines h w a = false := by simp [pcB]
      have hpm : pmB a safes mines a = false := by simp [pmB]
      simp only [List.foldl_cons, buildAcc, if_pos rfl, List.filter_cons,
        List.countP_cons, hpc, hpm]
      simpa using ih F n
    · by_cases h2 : a ∈ safes
      · have hpc : pcB cell safes mines h w a = false := by simp [pcB, h2]
        have hpm : pmB cell safes mines a = false := by simp [pmB, h2]
        simp only [List.foldl_cons, buildAcc, if_neg h1, if_pos h2, List.filter_cons,
          List.countP_cons, hpc, hpm]
        simpa using ih F n
      · by_cases h3 : a ∈ mines
        · have hpc : pcB cell safes mines h w a = false := by simp [pcB, h3]
          have hpm : pmB cell safes mines a = true := by simp [pmB, h1, h2, h3]
          simp only [List.foldl_cons, buildAcc, if_neg h1, if_neg h2, if_pos h3,
            List.filter_cons, List.countP_cons, hpc, hpm]
          rw [ih]
          rw [Prod.ext_iff]
          refine ⟨by simp, ?_⟩
          dsimp only
          push_cast
          try simp only [if_pos rfl]
          try push_cast
          ring
        · by_cases h4 : inBounds h w a
          · have hpc : pcB cell safes mines h w a = true := by
              simp [pcB, h1, h2, h3, h4]
            have hpm : pmB cell safes mines a = false := by simp [pmB, h3]
            simp only [List.foldl_cons, buildAcc, if_neg h1, if_neg h2, if_neg h3,
              if_pos h4, List.filter_cons, List.countP_cons, hpc, hpm]
            rw [ih]
            simp [Finset.union_insert]
          · have hpc : pcB cell safes mines h w a = false := by simp [pcB, h4]
            have hpm : pmB cell safes mines a = false := by simp [pmB, h3]
            simp only [List.foldl_cons, buildAcc, if_neg h1, if_neg h2, if_neg h3,
              if_neg h4, List.filter_cons, List.countP_cons, hpc, hpm]
            simpa using ih F n

theorem newSentence_closed (cell : Cell) (count : Int) (ai : MinesweeperAI) :
    newSentence cell count ai
      = ⟨((nbrList cell).filter (pcB cell ai.safes ai.mines ai.height ai.width)).toFinset,
         count - ((nbrList cell).countP (pmB cell ai.safes ai.mines) : Int)⟩ := by
  unfold newSentence
  rw [buildAcc_fold_closed]
  simp

theorem nbrList_nodup (c : Cell) : (nbrList c).Nodup := by
  unfold nbrList
  apply List.Nodup.map
  · intro d1 d2 heq
    have h1 : c.1 + d1.1 = c.1 + d2.1 := congrArg Prod.fst heq
    have h2 : c.2 + d1.2 = c.2 + d2.2 := congrArg Prod.snd heq
    have : d1.1 = d2.1 := by omega
    have : d1.2 = d2.2 := by omega
    cases d1
    cases d2
    simp_all
  · unfold nbrOffsets
    decide

/-- Splitting the true neighbor-mine count: mines already marked (they are
discounted) and mines that end up in the new cell set. -/
theorem countP_decomp (cell : Cell) (safes mines M : Finset Cell) (h w : Int)
    (hmM : mines ⊆ M) (hmB : ∀ c ∈ mines, inBounds h w c)
    (hsM : ∀ c ∈ safes, c ∉ M) :
    ∀ l : List Cell,
      l.countP (fun nb => decide (nb ≠ cell) && decide (inBounds h w nb) &&
          decide (nb ∈ M))
        = l.countP (pmB cell safes mines)
          + l.countP (fun nb => pcB cell safes mines h w nb && decide (nb ∈ M)) := by
  intro l
  induction l with
  | nil => rfl
  | cons a l ih =>
    simp only [List.countP_cons]
    rw [ih]
    have key : (if (decide (a ≠ cell) && decide (inBounds h w a) &&
            decide (a ∈ M)) = true then 1 else 0)
        = ((if pmB cell safes mines a = true then 1 else 0) : Nat)
          + (if (pcB cell safes mines h w a && decide (a ∈ M)) = true
              then 1 else 0) := by
      by_cases hmine : a ∈ mines
      · have haM : a ∈ M := hmM hmine
        have haB : inBounds h w a := hmB a hmine
        have haS : a ∉ safes := fun hs => (hsM a hs) haM
        by_cases hc : a = cell
        · simp [pmB, pcB, hmine, haM, haB, haS, hc]
        · simp [pmB, pcB, hmine, haM, haB, haS, hc]
      · by_cases haM : a ∈ M
        · have haS : a ∉ safes := fun hs => (hsM a hs) haM
          by_cases hc : a = cell
          · simp [pmB, pcB, hmine, haM, haS, hc]
          · by_cases haB : inBounds h w a
            · simp [pmB, pcB, hmine, haM, haS, hc, haB]
            · simp [pmB, pcB, hmine, haM, haS, hc, haB]
        · simp [pmB, pcB, hmine, haM]
    omega

theorem card_toFinset_filter_inter (M : Finset Cell) (p : Cell → Bool)
    (l : List Cell) (hnd : l.Nodup) :
    ((l.filter p).toFinset ∩ M).card
      = l.countP (fun x => p x && decide (x ∈ M)) := by
  have hset : (l.filter p).toFinset ∩ M
      = ((l.filter p).filter (fun x => decide (x ∈ M))).toFinset := by
    ext x
    simp only [Finset.mem_inter, List.mem_toFinset, List.mem_filter]
    constructor
    · rintro ⟨⟨hx, hp⟩, hM⟩
      exact ⟨⟨hx, hp⟩, by simpa using hM⟩
    · rintro ⟨⟨hx, hp⟩, hM⟩
      exact ⟨⟨hx, hp⟩, by simpa using hM⟩
  rw [hset, List.toFinset_card_of_nodup ((hnd.filter p).filter _),
    List.filter_filter, List.countP_eq_length_filter]
  congr 1
  apply List.filter_congr
  intro x _
  exact Bool.and_comm _ _

/-- The sentence built by a consistent `add_knowledge` call is sound and
in-bounds: the true neighbor count minus the discount for already-marked
mines is exactly the number of mines among the remaining cells. -/
theorem newSentence_sound {h w : Int} {M : Finset Cell} {ai : MinesweeperAI}
    (hInv : ConsistentInv h w M ai) (cell : Cell) :
    SoundFor M (newSentence cell (nearby_mines M h w cell : Int) ai)
      ∧ CellsInB h w (newSentence cell (nearby_mines M h w cell : Int) ai) := by
  obtain ⟨hh, hw, hk, hmM, hmB, hsM⟩ := hInv
  rw [newSentence_closed, hh, hw]
  constructor
  · unfold SoundFor nearby_mines
    dsimp only
    rw [card_toFinset_filter_inter M _ _ (nbrList_nodup cell),
      countP_decomp cell ai.safes ai.mines M h w hmM hmB hsM]
    push_cast
    ring
  · intro x hx
    dsimp only at hx
    rw [List.mem_toFinset, List.mem_filter] at hx
    have := hx.2
    unfold pcB at this
    simp only [Bool.and_eq_true, decide_eq_true_eq] at this
    exact this.2

theorem markNbrsSafe_fold_inv {h w : Int} {M : Finset Cell} (cell : Cell) :
    ∀ (l : List Cell), (∀ nb ∈ l, nb ≠ cell → inBounds h w nb → nb ∉ M) →
      ∀ {ai : MinesweeperAI}, ConsistentInv h w M ai →
        ConsistentInv h w M (l.foldl (fun a nb =>
          if nb = cell then a
          else if inBounds a.height a.width nb then
            (if nb ∉ a.safes ∧ nb ∉ a.mines then a.mark_safe nb else a)
          else a) ai) := by
  intro l
  induction l with
  | nil =>
    intro _ ai hInv
    exact hInv
  | cons a l ih =>
    intro hl ai hInv
    simp only [List.foldl_cons]
    apply ih (fun nb hnb => hl nb (List.mem_cons_of_mem a hnb))
    split
    · exact hInv
    · next hne =>
      split
      · next hB =>
        split
        · apply mark_safe_inv hInv
          apply hl a (List.mem_cons_self a l) hne
          rw [hInv.1, hInv.2.1] at hB
          exact hB
        · exact hInv
      · exact hInv

/-- The zero-count branch preserves the invariant: a true count of zero
means no in-bounds neighbor is a mine, so marking them safe is correct. -/
theorem markNbrsSafe_inv {h w : Int} {M : Finset Cell} {ai : MinesweeperAI}
    {cell : Cell} (hInv : ConsistentInv h w M ai)
    (hzero : nearby_mines M h w cell = 0) :
    ConsistentInv h w M (markNbrsSafe cell ai) := by
  unfold markNbrsSafe
  apply markNbrsSafe_fold_inv cell (nbrList cell) ?_ hInv
  intro nb hnb hne hB hM
  have hall := List.countP_eq_zero.mp hzero nb hnb
  simp only [Bool.and_eq_true, decide_eq_true_eq, not_and] at hall
  exact hall ⟨hne, hB⟩ hM

theorem appendNewSentence_inv {h w : Int} {M : Finset Cell} {ai : MinesweeperAI}
    {cell : Cell} (hInv : ConsistentInv h w M ai) :
    ConsistentInv h w M
      (appendNewSentence cell (nearby_mines M h w cell : Int) ai) := by
  obtain ⟨hh, hw, hk, hmM, hmB, hsM⟩ := hInv
  refine ⟨hh, hw, ?_, hmM, hmB, hsM⟩
  intro s hs
  unfold appendNewSentence at hs
  dsimp only at hs
  rcases List.mem_append.mp hs with hmem | hmem
  · exact hk s hmem
  · rw [List.mem_singleton.mp hmem]
    exact newSentence_sound ⟨hh, hw, hk, hmM, hmB, hsM⟩ cell

/-- A consistent `add_knowledge` call preserves the invariant. -/
theorem add_knowledge_inv {h w : Int} {M : Finset Cell} {ai : MinesweeperAI}
    {cell : Cell} (hInv : ConsistentInv h w M ai) (hcM : cell ∉ M) :
    ConsistentInv h w M
      (ai.add_knowledge cell (nearby_mines M h w cell : Int)) := by
  unfold MinesweeperAI.add_knowledge runSubsets
  apply check_knowledge_inv
  apply checkSubsets_inv
  apply check_knowledge_inv
  have h1 : ConsistentInv h w M (recordMove cell ai) := by
    obtain ⟨hh, hw, hk, hmM, hmB, hsM⟩ := hInv
    exact ⟨hh, hw, hk, hmM, hmB, hsM⟩
  have h2 : ConsistentInv h w M (markSelfSafe cell (recordMove cell ai)) := by
    unfold markSelfSafe
    split
    · exact h1
    · exact mark_safe_inv h1 hcM
  unfold integrateBranch
  split
  · next hzero =>
    have : nearby_mines M h w cell = 0 := by exact_mod_cast hzero
    exact markNbrsSafe_inv h2 this
  · exact appendNewSentence_inv h2

/-- Every state reachable by consistent observations satisfies the
invariant. -/
theorem reach_inv {h w : Int} {M : Finset Cell} :
    ∀ {ai : MinesweeperAI}, Reach h w M ai → ConsistentInv h w M ai := by
  intro ai hr
  induction hr with
  | init =>
    refine ⟨rfl, rfl, ?_, ?_, ?_, ?_⟩ <;> simp [MinesweeperAI.init]
  | step hr hcM hcB ih => exact add_knowledge_inv ih hcM

/-! ## Monotonicity: mines and safes only grow, cell sets only shrink -/

theorem applyTrigger_mono (s : Sentence) (ai : MinesweeperAI) :
    ai.mines ⊆ (ai.applyTrigger s).mines ∧ ai.safes ⊆ (ai.applyTrigger s).safes := by
  unfold MinesweeperAI.applyTrigger
  split
  · exact ⟨subset_rfl, subset_rfl⟩
  · split
    · rw [mark_mine_all_closed]
      exact ⟨Finset.subset_union_left, subset_rfl⟩
    · split
      · rw [mark_safe_all_closed]
        exact ⟨subset_rfl, Finset.subset_union_left⟩
      · exact ⟨subset_rfl, subset_rfl⟩

theorem checkFuel_mono : ∀ (n : Nat) (ai : MinesweeperAI),
    ai.mines ⊆ (checkFuel n ai).mines ∧ ai.safes ⊆ (checkFuel n ai).safes := by
  intro n
  induction n with
  | zero => intro ai; exact ⟨subset_rfl, subset_rfl⟩
  | succ n ih =>
    intro ai
    cases hft : findTrigger ai.knowledge with
    | none => simp [checkFuel, hft]
    | some s =>
      simp only [checkFuel, hft]
      obtain ⟨h1, h2⟩ := applyTrigger_mono s ai
      obtain ⟨h1', h2'⟩ := ih (ai.applyTrigger s)
      exact ⟨h1.trans h1', h2.trans h2'⟩

theorem markNbrsSafe_fold_mono (cell : Cell) : ∀ (l : List Cell) (ai : MinesweeperAI),
    ai.mines ⊆ (l.foldl (fun a nb =>
        if nb = cell then a
        else if inBounds a.height a.width nb then
          (if nb ∉ a.safes ∧ nb ∉ a.mines then a.mark_safe nb else a)
        else a) ai).mines ∧
    ai.safes ⊆ (l.foldl (fun a nb =>
        if nb = cell then a
        else if inBounds a.height a.width nb then
          (if nb ∉ a.safes ∧ nb ∉ a.mines then a.mark_safe nb else a)
        else a) ai).safes := by
  intro l
  induction l with
  | nil => intro ai; exact ⟨subset_rfl, subset_rfl⟩
  | cons a l ih =>
    intro ai
    simp only [List.foldl_cons]
    have hstep : ai.mines ⊆ (if a = cell then ai
          else if inBounds ai.height ai.width a then
            (if a ∉ ai.safes ∧ a ∉ ai.mines then ai.mark_safe a else ai)
          else ai).mines ∧
        ai.safes ⊆ (if a = cell then ai
          else if inBounds ai.height ai.width a then
            (if a ∉ ai.safes ∧ a ∉ ai.mines then ai.mark_safe a else ai)
          else ai).safes := by
      split
      · exact ⟨subset_rfl, subset_rfl⟩
      · split
        · split
          · exact ⟨subset_rfl, Finset.subset_insert a ai.safes⟩
          · exact ⟨subset_rfl, subset_rfl⟩
        · exact ⟨subset_rfl, subset_rfl⟩
    obtain ⟨h1', h2'⟩ := ih (if a = cell then ai
      else if inBounds ai.height ai.width a then
        (if a ∉ ai.safes ∧ a ∉ ai.mines then ai.mark_safe a else ai)
      else ai)
    exact ⟨hstep.1.trans h1', hstep.2.trans h2'⟩

theorem applyTrigger_shape {Q : Finset Cell → Prop}
    (hdown : ∀ {s t : Finset Cell}, t ⊆ s → Q s → Q t)
    (s : Sentence) (ai : MinesweeperAI) (hk : ∀ t ∈ ai.knowledge, Q t.cells) :
    ∀ t ∈ (ai.applyTrigger s).knowledge, Q t.cells := by
  unfold MinesweeperAI.applyTrigger
  split
  · intro t ht
    exact hk t (List.mem_of_mem_erase ht)
  · split
    · rw [mark_mine_all_closed]
      intro t' ht'
      simp only [List.mem_map] at ht'
      obtain ⟨t, ht, rfl⟩ := ht'
      exact hdown Finset.sdiff_subset (hk t ht)
    · split
      · rw [mark_safe_all_closed]
        intro t' ht'
        simp only [List.mem_map] at ht'
        obtain ⟨t, ht, rfl⟩ := ht'
        exact hdown Finset.sdiff_subset (hk t ht)
      · exact hk

theorem checkFuel_shape {Q : Finset Cell → Prop}
    (hdown : ∀ {s t : Finset Cell}, t ⊆ s → Q s → Q t) :
    ∀ (n : Nat) (ai : MinesweeperAI), (∀ t ∈ ai.knowledge, Q t.cells) →
      ∀ t ∈ (checkFuel n ai).knowledge, Q t.cells := by
  intro n
  induction n with
  | zero => intro ai hk; exact hk
  | succ n ih =>
    intro ai hk
    cases hft : findTrigger ai.knowledge with
    | none => simpa [checkFuel, hft] using hk
    | some s =>
      simp only [checkFuel, hft]
      exact ih _ (applyTrigger_shape hdown s ai hk)

theorem mark_safe_shape {Q : Finset Cell → Prop}
    (hdown : ∀ {s t : Finset Cell}, t ⊆ s → Q s → Q t)
    (c : Cell) (ai : MinesweeperAI) (hk : ∀ t ∈ ai.knowledge, Q t.cells) :
    ∀ t ∈ (ai.mark_safe c).knowledge, Q t.cells := by
  intro t' ht'
  simp only [MinesweeperAI.mark_safe, List.mem_map] at ht'
  obtain ⟨t, ht, rfl⟩ := ht'
  unfold Sentence.mark_safe
  split
  · exact hdown (Finset.erase_subset c t.cells) (hk t ht)
  · exact hk t ht

theorem markNbrsSafe_fold_shape {Q : Finset Cell → Prop}
    (hdown : ∀ {s t : Finset Cell}, t ⊆ s → Q s → Q t) (cell : Cell) :
    ∀ (l : List Cell) (ai : MinesweeperAI), (∀ t ∈ ai.knowledge, Q t.cells) →
      ∀ t ∈ (l.foldl (fun a nb =>
          if nb = cell then a
          else if inBounds a.height a.width nb then
            (if nb ∉ a.safes ∧ nb ∉ a.mines then a.mark_safe nb else a)
          else a) ai).knowledge, Q t.cells := by
  intro l
  induction l with
  | nil => intro ai hk; exact hk
  | cons a l ih =>
    intro ai hk
    simp only [List.foldl_cons]
    apply ih
    split
    · exact hk
    · split
      · split
        · exact mark_safe_shape hdown a ai hk
        · exact hk
      · exact hk

theorem newSentence_cells_subset (cell : Cell) (count : Int) (ai : MinesweeperAI) :
    (newSentence cell count ai).cells ⊆ (nbrList cell).toFinset := by
  rw [newSentence_closed]
  intro x hx
  simp only [List.mem_toFinset, List.mem_filter] at hx ⊢
  exact hx.1

theorem markSelfSafe_mines (cell : Cell) (ai : MinesweeperAI) :
    (markSelfSafe cell ai).mines = ai.mines := by
  unfold markSelfSafe
  split
  · rfl
  · rfl

theorem markSelfSafe_safes (cell : Cell) (ai : MinesweeperAI) :
    ai.safes ⊆ (markSelfSafe cell ai).safes := by
  unfold markSelfSafe
  split
  · exact subset_rfl
  · exact Finset.subset_insert cell ai.safes

theorem integrateBranch_mono (cell : Cell) (count : Int) (ai : MinesweeperAI) :
    ai.mines ⊆ (integrateBranch cell count ai).mines ∧
      ai.safes ⊆ (integrateBranch cell count ai).safes := by
  unfold integrateBranch
  split
  · unfold markNbrsSafe
    exact markNbrsSafe_fold_mono cell (nbrList cell) ai
  · exact ⟨subset_rfl, subset_rfl⟩

theorem markSelfSafe_shape {Q : Finset Cell → Prop}
    (hdown : ∀ {s t : Finset Cell}, t ⊆ s → Q s → Q t)
    (cell : Cell) (ai : MinesweeperAI) (hk : ∀ t ∈ ai.knowledge, Q t.cells) :
    ∀ t ∈ (markSelfSafe cell ai).knowledge, Q t.cells := by
  unfold markSelfSafe
  split
  · exact hk
  · exact mark_safe_shape hdown cell ai hk

theorem integrateBranch_shape {Q : Finset Cell → Prop}
    (hdown : ∀ {s t : Finset Cell}, t ⊆ s → Q s → Q t)
    (cell : Cell) (count : Int) (ai : MinesweeperAI)
    (hk : ∀ t ∈ ai.knowledge, Q t.cells)
    (hnew : Q (newSentence cell count ai).cells) :
    ∀ t ∈ (integrateBranch cell count ai).knowledge, Q t.cells := by
  unfold integrateBranch
  split
  · unfold markNbrsSafe
    exact markNbrsSafe_fold_shape hdown cell (nbrList cell) ai hk
  · intro t ht
    unfold appendNewSentence at ht
    dsimp only at ht
    rcases List.mem_append.mp ht with hmem | hmem
    · exact hk t hmem
    · rw [List.mem_singleton.mp hmem]
      exact hnew

theorem check_knowledge_mono (ai : MinesweeperAI) :
    ai.mines ⊆ ai.check_knowledge.mines ∧ ai.safes ⊆ ai.check_knowledge.safes :=
  checkFuel_mono (kbMeasure ai) ai

theorem check_knowledge_shape {Q : Finset Cell → Prop}
    (hdown : ∀ {s t : Finset Cell}, t ⊆ s → Q s → Q t) {ai : MinesweeperAI}
    (hk : ∀ t ∈ ai.knowledge, Q t.cells) :
    ∀ t ∈ ai.check_knowledge.knowledge, Q t.cells :=
  checkFuel_shape hdown (kbMeasure ai) ai hk

/-! ## The claims -/

/-- Claim C1: whenever the knowledge base holds two distinct sentences A and
B with the cell set of B a strict subset of the cell set of A, the
subset-inference pass inside `add_knowledge` ends with the difference
sentence (cells of A minus cells of B, count of A minus count of B) in the
collection, appending it unless a value-equal sentence is already present;
in particular from A = {c1,c2,c3} = 2 and B = {c1,c2} = 1 the derived
{c3} = 1 makes the following resolve pass mark c3 as a mine. -/
theorem claim_C1 :
    (∀ (k : List Sentence) (A B : Sentence), A ∈ k → B ∈ k → A ≠ B →
        B.cells ⊂ A.cells →
        (⟨A.cells \ B.cells, A.count - B.count⟩ : Sentence) ∈ checkSubsets k)
    ∧ (0, 2) ∈ (aiSubEx.add_knowledge (4, 4) 1).mines := by
  constructor
  · intro k A B hA hB hne hsub
    exact derived_mem_checkSubsets hA hB hne hsub
  · decide

theorem claim_C1_witness :
    (⟨({(0,0), (0,1), (0,2)} : Finset Cell) \ {(0,0), (0,1)}, (2 : Int) - 1⟩ :
        Sentence)
      ∈ checkSubsets [⟨{(0,0), (0,1), (0,2)}, 2⟩, ⟨{(0,0), (0,1)}, 1⟩] :=
  claim_C1.1 [⟨{(0,0), (0,1), (0,2)}, 2⟩, ⟨{(0,0), (0,1)}, 1⟩]
    ⟨{(0,0), (0,1), (0,2)}, 2⟩ ⟨{(0,0), (0,1)}, 1⟩
    (by decide) (by decide) (by decide) (by decide)

/-- Claim C2: assuming every count fed to `add_knowledge` is consistent with
an actual layout `M` (the `Reach` relation), every sentence of the knowledge
base, and every sentence after a further resolve pass, satisfies
`0 ≤ count ≤ card cells`.  Each reachable state is itself the output of a
resolve pass, since `add_knowledge` ends with `check_knowledge`. -/
theorem claim_C2 {h w : Int} {M : Finset Cell} {ai : MinesweeperAI}
    (hr : Reach h w M ai) :
    (∀ s ∈ ai.knowledge, 0 ≤ s.count ∧ s.count ≤ (s.cells.card : Int)) ∧
      (∀ s ∈ ai.check_knowledge.knowledge,
        0 ≤ s.count ∧ s.count ≤ (s.cells.card : Int)) := by
  have hbound : ∀ {b : MinesweeperAI}, ConsistentInv h w M b →
      ∀ s ∈ b.knowledge, 0 ≤ s.count ∧ s.count ≤ (s.cells.card : Int) := by
    intro b hInv s hs
    obtain ⟨-, -, hk, -, -, -⟩ := hInv
    obtain ⟨hS, -⟩ := hk s hs
    rw [hS]
    refine ⟨Int.natCast_nonneg _, ?_⟩
    exact_mod_cast Finset.card_le_card Finset.inter_subset_left
  have hInv := reach_inv hr
  exact ⟨hbound hInv, hbound (check_knowledge_inv hInv)⟩

theorem claim_C2_witness :
    0 ≤ sDup.count ∧ sDup.count ≤ (sDup.cells.card : Int) := by
  have hr : Reach 2 2 {(1, 1)} ((MinesweeperAI.init 2 2).add_knowledge (0, 0)
      (nearby_mines {(1, 1)} 2 2 (0, 0) : Int)) :=
    Reach.step Reach.init (by decide) (by decide)
  exact (claim_C2 hr).1 sDup (by decide)

/-- Claim C3 as stated is false: on a 3 by 3 board the cell (0,0) has eight
grid neighbors but only three in bounds; `add_knowledge ((0,0), 0)` marks
only the in-bounds ones safe, so the set of all eight neighbors is not
contained in the safes. -/
theorem claim_C3_counterexample :
    ¬ (neighbors8 (0, 0) ⊆
        ((MinesweeperAI.init 3 3).add_knowledge (0, 0) 0).safes) := by
  decide

/-- Claim C3, amended: the zero-count call marks exactly the in-bounds
neighbors of (0,0) — (0,1), (1,0), (1,1) — as safe, along with (0,0)
itself; out-of-bounds neighbors are filtered by the bounds test, not
marked. -/
theorem claim_C3_amended :
    ((MinesweeperAI.init 3 3).add_knowledge (0, 0) 0).safes
      = {(0, 0), (0, 1), (1, 0), (1, 1)} := by
  decide

/-- Claim C4 as stated is false: the sentence-building branch of
`add_knowledge` has no duplicate test, so integrating the same observation
twice leaves two value-equal sentences in the collection even though the
second call starts with that sentence already present. -/
theorem claim_C4_counterexample :
    sDup ∈ aiDup.knowledge ∧
      (aiDup.add_knowledge (0, 0) 1).knowledge = [sDup, sDup] := by
  constructor
  · decide
  · decide

/-- Claim C4, amended: a nonzero-count `add_knowledge` call appends the
built sentence unconditionally (only the subset-inference pass checks value
equality before appending), so value-equal duplicates can accumulate — after
two identical calls the built sentence occurs twice. -/
theorem claim_C4_amended :
    (∀ (ai : MinesweeperAI) (cell : Cell) (count : Int), count ≠ 0 →
        (integrateBranch cell count ai).knowledge
          = ai.knowledge ++ [newSentence cell count ai])
    ∧ (aiDup.add_knowledge (0, 0) 1).knowledge.count sDup = 2 := by
  constructor
  · intro ai cell count hc
    unfold integrateBranch
    rw [if_neg hc]
    rfl
  · decide

theorem claim_C4_witness :
    (integrateBranch (0, 0) 1 (MinesweeperAI.init 2 2)).knowledge
      = (MinesweeperAI.init 2 2).knowledge
        ++ [newSentence (0, 0) 1 (MinesweeperAI.init 2 2)] :=
  claim_C4_amended.1 (MinesweeperAI.init 2 2) (0, 0) 1 (by decide)

/-- Claim C5 as stated is false: with an inconsistent observation sequence
(revealing a cell already proven to be a mine), the mine set and the safe
set intersect after the call. -/
theorem claim_C5_counterexample :
    (0, 1) ∈ aiClash.mines ∧ (0, 1) ∈ aiClash.safes := by
  constructor
  · decide
  · decide

/-- Claim C5, amended: for every sequence of `add_knowledge` calls whose
counts are consistent with an actual mine layout (and which only reveals
non-mine cells), the known mines and known safes stay disjoint after every
call. -/
theorem claim_C5_amended {h w : Int} {M : Finset Cell} {ai : MinesweeperAI}
    (hr : Reach h w M ai) : ∀ c ∈ ai.mines, c ∉ ai.safes := by
  obtain ⟨-, -, -, hmM, -, hsM⟩ := reach_inv hr
  intro c hc hcs
  exact hsM c hcs (hmM hc)

theorem claim_C5_witness :
    (0, 1) ∉ ((MinesweeperAI.init 1 2).add_knowledge (0, 0)
      (nearby_mines {(0, 1)} 1 2 (0, 0) : Int)).safes := by
  have hr : Reach 1 2 {(0, 1)} ((MinesweeperAI.init 1 2).add_knowledge (0, 0)
      (nearby_mines {(0, 1)} 1 2 (0, 0) : Int)) :=
    Reach.step Reach.init (by decide) (by decide)
  exact claim_C5_amended hr (0, 1) (by decide)

/-- Claim C6: across an `add_knowledge` call the known mines and known
safes only grow, and the cell set of every sentence in the resulting
collection is contained in the cell set of some sentence held before the
call or (for the newly built sentence and anything derived from it) in the
neighbor set of the integrated cell — pre-existing sentences only ever
shrink. -/
theorem claim_C6 (ai : MinesweeperAI) (cell : Cell) (count : Int) :
    ai.mines ⊆ (ai.add_knowledge cell count).mines ∧
      ai.safes ⊆ (ai.add_knowledge cell count).safes ∧
      ∀ s ∈ (ai.add_knowledge cell count).knowledge,
        (∃ t ∈ ai.knowledge, s.cells ⊆ t.cells) ∨
          s.cells ⊆ (nbrList cell).toFinset := by
  unfold MinesweeperAI.add_knowledge
  set b1 := markSelfSafe cell (recordMove cell ai) with hb1
  set b3 := integrateBranch cell count b1 with hb3
  set b4 := b3.check_knowledge with hb4
  set b5 := runSubsets b4 with hb5
  have hmines : ai.mines ⊆ b5.check_knowledge.mines := by
    calc ai.mines = b1.mines := (markSelfSafe_mines cell (recordMove cell ai)).symm
      _ ⊆ b3.mines := (integrateBranch_mono cell count b1).1
      _ ⊆ b4.mines := (check_knowledge_mono b3).1
      _ = b5.mines := rfl
      _ ⊆ b5.check_knowledge.mines := (check_knowledge_mono b5).1
  have hsafes : ai.safes ⊆ b5.check_knowledge.safes := by
    calc ai.safes ⊆ b1.safes := markSelfSafe_safes cell (recordMove cell ai)
      _ ⊆ b3.safes := (integrateBranch_mono cell count b1).2
      _ ⊆ b4.safes := (check_knowledge_mono b3).2
      _ = b5.safes := rfl
      _ ⊆ b5.check_knowledge.safes := (check_knowledge_mono b5).2
  refine ⟨hmines, hsafes, ?_⟩
  have hdown : ∀ {s t : Finset Cell}, t ⊆ s →
      ((∃ u ∈ ai.knowledge, s ⊆ u.cells) ∨ s ⊆ (nbrList cell).toFinset) →
      ((∃ u ∈ ai.knowledge, t ⊆ u.cells) ∨ t ⊆ (nbrList cell).toFinset) := by
    intro s t hts hQs
    rcases hQs with ⟨u, hu, hsu⟩ | hsub
    · exact Or.inl ⟨u, hu, hts.trans hsu⟩
    · exact Or.inr (hts.trans hsub)
  have hk0 : ∀ t ∈ (recordMove cell ai).knowledge,
      (∃ u ∈ ai.knowledge, t.cells ⊆ u.cells) ∨
        t.cells ⊆ (nbrList cell).toFinset := by
    intro t ht
    exact Or.inl ⟨t, ht, subset_rfl⟩
  have hk1 := markSelfSafe_shape hdown cell (recordMove cell ai) hk0
  have hk3 := integrateBranch_shape hdown cell count b1 hk1
    (Or.inr (newSentence_cells_subset cell count b1))
  have hk4 := check_knowledge_shape hdown hk3
  have hk5 : ∀ t ∈ b5.knowledge,
      (∃ u ∈ ai.knowledge, t.cells ⊆ u.cells) ∨
        t.cells ⊆ (nbrList cell).toFinset := by
    intro t ht
    refine checkSubsets_preserve ?_ ?_ hk4 t ht
    · exact Or.inr (Finset.empty_subset _)
    · intro a b ha hb hsub
      exact hdown Finset.sdiff_subset ha
  exact check_knowledge_shape hdown hk5

theorem claim_C6_witness :
    ((MinesweeperAI.init 2 2).mines
        ⊆ ((MinesweeperAI.init 2 2).add_knowledge (0, 0) 1).mines) ∧
      ((∃ t ∈ (MinesweeperAI.init 2 2).knowledge, sDup.cells ⊆ t.cells) ∨
        sDup.cells ⊆ (nbrList (0, 0)).toFinset) :=
  ⟨(claim_C6 (MinesweeperAI.init 2 2) (0, 0) 1).1,
    (claim_C6 (MinesweeperAI.init 2 2) (0, 0) 1).2.2 sDup (by decide)⟩

/-- Claim C7: the restart recursion of `check_knowledge` is well founded —
iterating its one-step function `kbMeasure` many times (a bound coming from
the finite, shrinking cell universe) reaches `check_knowledge`, which is a
fixpoint: its scan finds nothing further to simplify. -/
theorem claim_C7 (ai : MinesweeperAI) :
    stepFn^[kbMeasure ai] ai = ai.check_knowledge ∧
      stepFn ai.check_knowledge = ai.check_knowledge ∧
      findTrigger ai.check_knowledge.knowledge = none :=
  ⟨(checkFuel_eq_iterate (kbMeasure ai) ai).symm, stepFn_check_knowledge ai,
    check_knowledge_fixpoint ai⟩

/-- Claim C8 as stated is false: when the subset-inference pass derives a
sentence with a negative count, the engine does not surface any diagnostic —
the corrupted sentence is silently appended to the knowledge collection and
survives the final resolve pass. -/
theorem claim_C8_counterexample :
    (⟨{(0, 2)}, -2⟩ : Sentence)
      ∈ (aiBadEx.add_knowledge (4, 4) 1).knowledge := by
  decide

/-- Claim C8, amended: the subset-inference pass performs no validation of
the derived count; a derived sentence whose count is negative is appended to
the knowledge collection exactly like a well-formed one. -/
theorem claim_C8_amended :
    ∀ (k : List Sentence) (A B : Sentence), A ∈ k → B ∈ k → A ≠ B →
      B.cells ⊂ A.cells → A.count < B.count →
      (⟨A.cells \ B.cells, A.count - B.count⟩ : Sentence) ∈ checkSubsets k ∧
        A.count - B.count < 0 := by
  intro k A B hA hB hne hsub hlt
  exact ⟨derived_mem_checkSubsets hA hB hne hsub, by omega⟩

theorem claim_C8_witness :
    (⟨({(0,0), (0,1), (0,2)} : Finset Cell) \ {(0,0), (0,1)}, (1 : Int) - 3⟩ :
        Sentence)
      ∈ checkSubsets [⟨{(0,0), (0,1), (0,2)}, 1⟩, ⟨{(0,0), (0,1)}, 3⟩] ∧
      (1 : Int) - 3 < 0 :=
  claim_C8_amended [⟨{(0,0), (0,1), (0,2)}, 1⟩, ⟨{(0,0), (0,1)}, 3⟩]
    ⟨{(0,0), (0,1), (0,2)}, 1⟩ ⟨{(0,0), (0,1)}, 3⟩
    (by decide) (by decide) (by decide) (by decide) (by decide)

theorem Sentence.mark_mine_idem (c : Cell) (t : Sentence) :
    (t.mark_mine c).mark_mine c = t.mark_mine c := by
  by_cases h : c ∈ t.cells
  · unfold Sentence.mark_mine
    simp [h, Finset.not_mem_erase]
  · unfold Sentence.mark_mine
    simp [h]

theorem Sentence.mark_safe_idem (c : Cell) (t : Sentence) :
    (t.mark_safe c).mark_safe c = t.mark_safe c := by
  by_cases h : c ∈ t.cells
  · unfold Sentence.mark_safe
    simp [h, Finset.not_mem_erase]
  · unfold Sentence.mark_safe
    simp [h]

/-- Claim C9: `mark_mine` and `mark_safe` are idempotent — a second call on
the same cell changes nothing: not the mine set, not the safe set, and not
the cells or count of any sentence. -/
theorem claim_C9 (ai : MinesweeperAI) (c : Cell) :
    (ai.mark_mine c).mark_mine c = ai.mark_mine c ∧
      (ai.mark_safe c).mark_safe c = ai.mark_safe c := by
  constructor
  · unfold MinesweeperAI.mark_mine
    dsimp only
    rw [Finset.insert_idem, List.map_map]
    congr 1
    apply List.map_congr_left
    intro t _
    simpa using Sentence.mark_mine_idem c t
  · unfold MinesweeperAI.mark_safe
    dsimp only
    rw [Finset.insert_idem, List.map_map]
    congr 1
    apply List.map_congr_left
    intro t _
    simpa using Sentence.mark_safe_idem c t

/-- Claim C10: after every `add_knowledge` call — which ends with a full
`check_knowledge` — every remaining sentence is undetermined: non-empty
cell set, count different from zero and from the cell-set size. -/
theorem claim_C10 (ai : MinesweeperAI) (cell : Cell) (count : Int) :
    ∀ s ∈ (ai.add_knowledge cell count).knowledge,
      s.cells ≠ ∅ ∧ s.count ≠ 0 ∧ s.count ≠ (s.cells.card : Int) := by
  intro s hs
  have hnone : findTrigger (ai.add_knowledge cell count).knowledge = none := by
    unfold MinesweeperAI.add_knowledge
    exact check_knowledge_fixpoint _
  exact triggers_false s (findTrigger_none hnone s hs)

theorem claim_C10_witness :
    sDup.cells ≠ ∅ ∧ sDup.count ≠ 0 ∧ sDup.count ≠ (sDup.cells.card : Int) :=
  claim_C10 (MinesweeperAI.init 2 2) (0, 0) 1 sDup (by decide)
